import Mathlib

/-!
Verification of the Study Podcast Player (`src/app.js`).

The file `src/app.js` contains two revisions of the player; the later
revision (the one with the Enhanced/Premium/Google voice preference, the
`paused` guard in `speakNext`, and the 60/120 ms deferred ticks) is the one
embedded here, since it is the revision the specification describes.

Texts are modelled as `List Char`; JavaScript string primitives
(`slice`, `lastIndexOf`, `trim`, `replace`) are embedded as executable
Lean functions with the semantics those builtins have.
-/

namespace StudyPlayer

/-- JS whitespace test used by `String.prototype.trim` (restricted to the
common whitespace characters, as `Char.isWhitespace`). -/
def wsChar (c : Char) : Bool := c.isWhitespace

/-- The non-whitespace characters, i.e. the narrated content. -/
def nonWS (c : Char) : Bool := !wsChar c

/-- Embeds `text.replace(/\r\n/g, "\n")`: left-to-right, non-overlapping
replacement of each CRLF pair by a single newline. -/
def normCRLF : List Char → List Char
  | [] => []
  | '\r' :: '\n' :: rest => '\n' :: normCRLF rest
  | c :: rest => c :: normCRLF rest

/-- Embeds `s.trim()`: remove whitespace from both ends. -/
def trimChars (l : List Char) : List Char :=
  ((l.dropWhile wsChar).reverse.dropWhile wsChar).reverse

/-- Embeds `const clean = (text || "").replace(/\r\n/g, "\n").trim();`
(app.js line 285). -/
def cleanOf (text : List Char) : List Char := trimChars (normCRLF text)

/-- Embeds `s.slice(i, e)` for `0 ≤ i ≤ e`: the characters at indices `i … e-1`. -/
def jsSlice (l : List Char) (i e : Nat) : List Char := (l.drop i).take (e - i)

/-- Largest `k < n` with `P k`, scanning downwards (`none` when no index
below `n` satisfies `P`). -/
def lastSat (P : Nat → Bool) : Nat → Option Nat
  | 0 => none
  | n + 1 => if P n then some n else lastSat P n

/-- Embeds `s.lastIndexOf(pat)`: the largest index at which `pat` occurs in `s`
(occurrence at `k` meaning `pat` is an initial run of `s.drop k`),
or `-1` when there is none. -/
def jsLastIndexOf (s pat : List Char) : Int :=
  match lastSat (fun k => pat.isPrefixOf (s.drop k)) (s.length + 1) with
  | some k => (k : Int)
  | none => -1

/-- Embeds `Math.max(slice.lastIndexOf(". "), slice.lastIndexOf("? "),
slice.lastIndexOf("! "), slice.lastIndexOf("\n"))` (app.js lines 296-301). -/
def lastBreakOf (s : List Char) : Int :=
  max (max (jsLastIndexOf s ['.', ' ']) (jsLastIndexOf s ['?', ' ']))
      (max (jsLastIndexOf s ['!', ' ']) (jsLastIndexOf s ['\n']))

/-- Embeds `let end = Math.min(i + maxChars, clean.length);` (app.js line 292). -/
def proposedEnd (clean : List Char) (m i : Nat) : Nat :=
  min (i + m) clean.length

/-- Embeds `const slice = clean.slice(i, end);` (app.js line 295). -/
def windowOf (clean : List Char) (m i : Nat) : List Char :=
  jsSlice clean i (proposedEnd clean m i)

/-- Embeds the boundary adjustment of app.js lines 304-306 — when the
proposed end has not reached the end of the text and the last break lies
past index 200, `end` becomes `i + lastBreak + 1`: the end of the current
chunk after the sentence-boundary adjustment. -/
def chosenEnd (clean : List Char) (m i : Nat) : Nat :=
  if proposedEnd clean m i < clean.length ∧ 200 < lastBreakOf (windowOf clean m i) then
    i + (lastBreakOf (windowOf clean m i)).toNat + 1
  else proposedEnd clean m i

/-- The `while (i < clean.length)` loop of `chunkText` (app.js lines
291-312): the emitted chunk is `clean.slice(i, end).trim()`, pushed only
when non-empty, and the cursor advances to `end`.  Fuel-indexed: `none`
means the fuel ran out with the loop still running (the source loop has
not terminated within that many iterations). -/
def chunkLoop (clean : List Char) (m : Nat) : Nat → Nat → Option (List (List Char))
  | 0, i => if i < clean.length then none else some []
  | fuel + 1, i =>
    if i < clean.length then
      match chunkLoop clean m fuel (chosenEnd clean m i) with
      | none => none
      | some rest =>
        some (if trimChars (jsSlice clean i (chosenEnd clean m i)) = [] then rest
              else trimChars (jsSlice clean i (chosenEnd clean m i)) :: rest)
    else some []

/-- Embeds `chunkText(text, maxChars)` (app.js lines 284-315).  For positive
`maxChars` every loop iteration advances the index by at least one, so
`clean.length` units of fuel always suffice; `none` therefore reports a
non-terminating run of the source loop. -/
def chunkText (text : List Char) (m : Nat) : Option (List (List Char)) :=
  let clean := cleanOf text
  if clean = [] then some [] else chunkLoop clean m clean.length 0

/-- A preferred-break candidate occurs at index `k` of the window: one of
`". "`, `"? "`, `"! "`, `"\n"` starts there.  (Spec §4.1 step b.) -/
def breakCandidate (s : List Char) (k : Nat) : Bool :=
  (List.isPrefixOf ['.', ' '] (s.drop k) || List.isPrefixOf ['?', ' '] (s.drop k)) ||
  (List.isPrefixOf ['!', ' '] (s.drop k) || List.isPrefixOf ['\n'] (s.drop k))

/-- Modelled from the spec: the overall rightmost index among all
occurrences of the candidate break patterns in the window. -/
def specLastBreak (s : List Char) : Option Nat :=
  lastSat (breakCandidate s) (s.length + 1)

/-- Maximum on `Option Nat` with `none` as bottom. -/
def omax : Option Nat → Option Nat → Option Nat
  | none, b => b
  | some a, none => some a
  | some a, some b => some (max a b)

/-- Convert an optional index to the JS convention (`-1` for "absent"). -/
def toIdx : Option Nat → Int
  | none => -1
  | some k => (k : Int)

theorem lastSat_lt {P : Nat → Bool} : ∀ {n k : Nat}, lastSat P n = some k → k < n := by
  intro n
  induction n with
  | zero => intro k h; simp [lastSat] at h
  | succ n ih =>
    intro k h
    by_cases hp : P n
    · simp [lastSat, hp] at h
      omega
    · simp [lastSat, hp] at h
      exact Nat.lt_succ_of_lt (ih h)

theorem lastSat_sat {P : Nat → Bool} : ∀ {n k : Nat}, lastSat P n = some k → P k = true := by
  intro n
  induction n with
  | zero => intro k h; simp [lastSat] at h
  | succ n ih =>
    intro k h
    by_cases hp : P n
    · simp [lastSat, hp] at h
      subst h; exact hp
    · simp [lastSat, hp] at h
      exact ih h

theorem lastSat_max {P : Nat → Bool} : ∀ {n k j : Nat},
    lastSat P n = some k → j < n → P j = true → j ≤ k := by
  intro n
  induction n with
  | zero => intro k j h; simp [lastSat] at h
  | succ n ih =>
    intro k j h hj hPj
    by_cases hp : P n
    · simp [lastSat, hp] at h
      omega
    · simp [lastSat, hp] at h
      have hjn : j < n := by
        rcases Nat.lt_or_ge j n with h' | h'
        · exact h'
        · have hj' : j = n := by omega
          exact absurd (hj' ▸ hPj) hp
      exact ih h hjn hPj

theorem lastSat_none {P : Nat → Bool} : ∀ {n j : Nat},
    lastSat P n = none → j < n → P j = false := by
  intro n
  induction n with
  | zero => intro j _ hj; omega
  | succ n ih =>
    intro j h hj
    by_cases hp : P n
    · simp [lastSat, hp] at h
    · simp [lastSat, hp] at h
      rcases Nat.lt_or_ge j n with h' | h'
      · exact ih h h'
      · have hj' : j = n := by omega
        subst hj'
        simpa using hp

theorem lastSat_or (P Q : Nat → Bool) : ∀ n : Nat,
    lastSat (fun k => P k || Q k) n = omax (lastSat P n) (lastSat Q n) := by
  intro n
  induction n with
  | zero => rfl
  | succ n ih =>
    by_cases hp : P n
    · have h1 : lastSat P (n + 1) = some n := by simp [lastSat, hp]
      have h2 : lastSat (fun k => P k || Q k) (n + 1) = some n := by
        simp [lastSat, hp]
      rw [h2, h1]
      cases hq : lastSat Q (n + 1) with
      | none => rfl
      | some b =>
        have hb : b < n + 1 := lastSat_lt hq
        simp [omax]
        omega
    · by_cases hq : Q n
      · have h1 : lastSat Q (n + 1) = some n := by simp [lastSat, hq]
        have h2 : lastSat (fun k => P k || Q k) (n + 1) = some n := by
          simp [lastSat, hp, hq]
        rw [h2, h1]
        have h3 : lastSat P (n + 1) = lastSat P n := by simp [lastSat, hp]
        rw [h3]
        cases hP : lastSat P n with
        | none => rfl
        | some a =>
          have ha : a < n := lastSat_lt hP
          simp [omax]
          omega
      · have h2 : lastSat (fun k => P k || Q k) (n + 1) = lastSat (fun k => P k || Q k) n := by
          simp [lastSat, hp, hq]
        have h3 : lastSat P (n + 1) = lastSat P n := by simp [lastSat, hp]
        have h4 : lastSat Q (n + 1) = lastSat Q n := by simp [lastSat, hq]
        rw [h2, h3, h4, ih]

theorem toIdx_omax (a b : Option Nat) : toIdx (omax a b) = max (toIdx a) (toIdx b) := by
  cases a with
  | none =>
    cases b with
    | none => simp [toIdx, omax]
    | some y =>
      simp only [toIdx, omax]
      rw [max_eq_right]
      have : (0 : Int) ≤ (y : Int) := Int.natCast_nonneg y
      omega
  | some x =>
    cases b with
    | none =>
      simp only [toIdx, omax]
      rw [max_eq_left]
      have : (0 : Int) ≤ (x : Int) := Int.natCast_nonneg x
      omega
    | some y =>
      simp only [toIdx, omax]
      rw [Nat.cast_max]

theorem jsLastIndexOf_eq_toIdx (s pat : List Char) :
    jsLastIndexOf s pat =
      toIdx (lastSat (fun k => pat.isPrefixOf (s.drop k)) (s.length + 1)) := by
  unfold jsLastIndexOf
  cases hl : lastSat (fun k => pat.isPrefixOf (s.drop k)) (s.length + 1) with
  | none => simp [toIdx]
  | some k => simp [toIdx]

theorem lastBreakOf_eq_spec (s : List Char) :
    lastBreakOf s = toIdx (specLastBreak s) := by
  unfold lastBreakOf
  rw [jsLastIndexOf_eq_toIdx, jsLastIndexOf_eq_toIdx, jsLastIndexOf_eq_toIdx,
    jsLastIndexOf_eq_toIdx, ← toIdx_omax, ← toIdx_omax, ← toIdx_omax,
    ← lastSat_or, ← lastSat_or, ← lastSat_or]
  rfl

theorem isPrefixOf_cons_ne_nil {c : Char} {cs l : List Char}
    (h : List.isPrefixOf (c :: cs) l = true) : l ≠ [] := by
  intro hl
  subst hl
  simp [List.isPrefixOf] at h

theorem breakCandidate_lt {s : List Char} {j : Nat}
    (h : breakCandidate s j = true) : j < s.length := by
  unfold breakCandidate at h
  have hne : s.drop j ≠ [] := by
    simp only [Bool.or_eq_true] at h
    rcases h with (h' | h') | (h' | h') <;> exact isPrefixOf_cons_ne_nil h'
  have hnle : ¬ s.length ≤ j := fun hle => hne (List.drop_eq_nil_of_le hle)
  omega

theorem specLastBreak_some_lt {s : List Char} {k : Nat}
    (h : specLastBreak s = some k) : k < s.length :=
  breakCandidate_lt (lastSat_sat h)

theorem windowOf_length (clean : List Char) (m i : Nat) :
    (windowOf clean m i).length = proposedEnd clean m i - i := by
  unfold windowOf jsSlice proposedEnd
  rw [List.length_take, List.length_drop]
  omega

theorem chosenEnd_gt (clean : List Char) (m i : Nat) (hm : 0 < m)
    (hi : i < clean.length) : i < chosenEnd clean m i := by
  unfold chosenEnd
  split
  · omega
  · unfold proposedEnd
    omega

theorem chosenEnd_le (clean : List Char) (m i : Nat) :
    chosenEnd clean m i ≤ proposedEnd clean m i := by
  unfold chosenEnd
  split
  · next hcond =>
    obtain ⟨h1, h2⟩ := hcond
    rw [lastBreakOf_eq_spec] at h2 ⊢
    cases hb : specLastBreak (windowOf clean m i) with
    | none =>
      rw [hb] at h2
      simp only [toIdx] at h2
      omega
    | some k =>
      rw [hb] at h2
      simp only [toIdx] at h2 ⊢
      rw [Int.toNat_natCast]
      have hk : k < (windowOf clean m i).length := specLastBreak_some_lt hb
      rw [windowOf_length] at hk
      have hie : i ≤ proposedEnd clean m i := by
        unfold proposedEnd
        omega
      omega
  · exact le_refl _

theorem chosenEnd_le_length (clean : List Char) (m i : Nat) :
    chosenEnd clean m i ≤ clean.length := by
  have h := chosenEnd_le clean m i
  unfold proposedEnd at h
  omega

/-- Claim C5: within each window `clean.slice(i, end)`, the break point the
code uses is the overall rightmost index among all occurrences of the
candidate patterns `". "`, `"? "`, `"! "` and `"\n"` (rightmost by
position, not by pattern precedence), and the proposed end moves to just
after that break point exactly when the break lies strictly past character
200 of the window and the proposed end has not already reached the end of
the text; otherwise the proposed end is kept. -/
theorem break_selection_follows_spec (clean : List Char) (m i : Nat) :
    (chosenEnd clean m i =
      match specLastBreak (windowOf clean m i) with
      | some k =>
        if proposedEnd clean m i < clean.length ∧ 200 < k then i + k + 1
        else proposedEnd clean m i
      | none => proposedEnd clean m i) ∧
    (∀ k, specLastBreak (windowOf clean m i) = some k →
      breakCandidate (windowOf clean m i) k = true ∧
      ∀ j, breakCandidate (windowOf clean m i) j = true → j ≤ k) ∧
    (specLastBreak (windowOf clean m i) = none →
      ∀ j, breakCandidate (windowOf clean m i) j = false) := by
  refine ⟨?_, ?_, ?_⟩
  · unfold chosenEnd
    rw [lastBreakOf_eq_spec]
    cases hb : specLastBreak (windowOf clean m i) with
    | none =>
      show _ = proposedEnd clean m i
      rw [if_neg]
      rintro ⟨-, h2⟩
      simp only [toIdx] at h2
      omega
    | some k =>
      show _ = if proposedEnd clean m i < clean.length ∧ 200 < k then i + k + 1
               else proposedEnd clean m i
      simp only [toIdx, Int.toNat_natCast]
      by_cases hc : proposedEnd clean m i < clean.length ∧ 200 < k
      · rw [if_pos ⟨hc.1, by exact_mod_cast hc.2⟩, if_pos hc]
      · rw [if_neg, if_neg hc]
        rintro ⟨ha, h2⟩
        exact hc ⟨ha, by exact_mod_cast h2⟩
  · intro k hk
    refine ⟨lastSat_sat hk, ?_⟩
    intro j hj
    have hjlt : j < (windowOf clean m i).length + 1 := by
      have := breakCandidate_lt hj
      omega
    exact lastSat_max hk hjlt hj
  · intro hnone j
    cases hcb : breakCandidate (windowOf clean m i) j with
    | false => rfl
    | true =>
      have hl := breakCandidate_lt hcb
      have hf := lastSat_none hnone (show j < (windowOf clean m i).length + 1 by omega)
      rw [hcb] at hf
      exact absurd hf (by simp)

/-- Witness for the break-selection theorem at a concrete window. -/
theorem break_selection_witness :
    breakCandidate (windowOf ['a', '.', ' ', 'b'] 10 0) 1 = true ∧
    chosenEnd ['a', '.', ' ', 'b'] 10 0 = 4 := by
  have h := break_selection_follows_spec ['a', '.', ' ', 'b'] 10 0
  refine ⟨(h.2.1 1 (by decide)).1, h.1.trans ?_⟩
  decide

theorem jsSlice_length (l : List Char) (i e : Nat) (h1 : i ≤ e)
    (h2 : e ≤ l.length) : (jsSlice l i e).length = e - i := by
  unfold jsSlice
  rw [List.length_take, List.length_drop]
  omega

theorem jsSlice_append_drop (l : List Char) (i e : Nat) (h1 : i ≤ e) :
    jsSlice l i e ++ l.drop e = l.drop i := by
  unfold jsSlice
  have hd : l.drop e = (l.drop i).drop (e - i) := by
    rw [List.drop_drop]
    congr 1
    omega
  rw [hd, List.take_append_drop]

theorem trimChars_sublist (l : List Char) : (trimChars l).Sublist l := by
  unfold trimChars
  have h1 : (List.dropWhile wsChar l).Sublist l := List.dropWhile_sublist _
  have h2 : (List.dropWhile wsChar (List.dropWhile wsChar l).reverse).Sublist
      (List.dropWhile wsChar l).reverse := List.dropWhile_sublist _
  have h3 := h2.reverse
  rw [List.reverse_reverse] at h3
  exact h3.trans h1

theorem trimChars_length_le (l : List Char) : (trimChars l).length ≤ l.length :=
  (trimChars_sublist l).length_le

theorem filter_nonWS_dropWhile (l : List Char) :
    (l.dropWhile wsChar).filter nonWS = l.filter nonWS := by
  induction l with
  | nil => rfl
  | cons c cs ih =>
    by_cases hc : wsChar c
    · have hn : nonWS c = false := by simp [nonWS, hc]
      rw [List.dropWhile_cons, if_pos hc, List.filter_cons, if_neg (by simp [hn]), ih]
    · rw [List.dropWhile_cons, if_neg hc]

theorem trimChars_filter (l : List Char) :
    (trimChars l).filter nonWS = l.filter nonWS := by
  unfold trimChars
  rw [List.filter_reverse, filter_nonWS_dropWhile, List.filter_reverse,
    List.reverse_reverse, filter_nonWS_dropWhile]

/-- Structural specification of the chunking loop run with enough fuel:
for positive `maxChars` the loop terminates, the flattened output is a
sublist of the remaining text, it keeps exactly the non-whitespace
characters of the remaining text in order, and every emitted chunk is
non-empty of length at most `maxChars`. -/
theorem chunkLoop_spec (clean : List Char) (m : Nat) (hm : 0 < m) :
    ∀ fuel i, clean.length - i ≤ fuel →
      ∃ out, chunkLoop clean m fuel i = some out ∧
        out.flatten.Sublist (clean.drop i) ∧
        out.flatten.filter nonWS = (clean.drop i).filter nonWS ∧
        ∀ c ∈ out, c.length ≤ m ∧ c ≠ [] := by
  intro fuel
  induction fuel with
  | zero =>
    intro i hfuel
    have hge : clean.length ≤ i := by omega
    refine ⟨[], ?_, ?_, ?_, by simp⟩
    · unfold chunkLoop
      rw [if_neg (by omega)]
    · simp [List.drop_eq_nil_of_le hge]
    · simp [List.drop_eq_nil_of_le hge]
  | succ fuel ih =>
    intro i hfuel
    by_cases hi : i < clean.length
    · have hgt : i < chosenEnd clean m i := chosenEnd_gt clean m i hm hi
      have hle : chosenEnd clean m i ≤ clean.length := chosenEnd_le_length clean m i
      obtain ⟨rest, hrest, hsub, hfil, hbound⟩ :=
        ih (chosenEnd clean m i) (by omega)
      have hsplit : jsSlice clean i (chosenEnd clean m i) ++ clean.drop (chosenEnd clean m i) =
          clean.drop i := jsSlice_append_drop clean i (chosenEnd clean m i) (by omega)
      by_cases hp : trimChars (jsSlice clean i (chosenEnd clean m i)) = []
      · refine ⟨rest, ?_, ?_, ?_, hbound⟩
        · unfold chunkLoop
          rw [if_pos hi, hrest]
          show some (if trimChars (jsSlice clean i (chosenEnd clean m i)) = [] then rest
                     else trimChars (jsSlice clean i (chosenEnd clean m i)) :: rest) = some rest
          rw [if_pos hp]
        · have h1 : rest.flatten.Sublist
              (jsSlice clean i (chosenEnd clean m i) ++ clean.drop (chosenEnd clean m i)) :=
            hsub.trans (List.sublist_append_right _ _)
          rwa [hsplit] at h1
        · have hsl : (jsSlice clean i (chosenEnd clean m i)).filter nonWS = [] := by
            rw [← trimChars_filter, hp]
            rfl
          rw [← hsplit, List.filter_append, hsl, List.nil_append, hfil]
      · refine ⟨trimChars (jsSlice clean i (chosenEnd clean m i)) :: rest, ?_, ?_, ?_, ?_⟩
        · unfold chunkLoop
          rw [if_pos hi, hrest]
          show some (if trimChars (jsSlice clean i (chosenEnd clean m i)) = [] then rest
                     else trimChars (jsSlice clean i (chosenEnd clean m i)) :: rest) =
            some (trimChars (jsSlice clean i (chosenEnd clean m i)) :: rest)
          rw [if_neg hp]
        · rw [List.flatten_cons, ← hsplit]
          exact (trimChars_sublist _).append hsub
        · rw [List.flatten_cons, ← hsplit, List.filter_append, List.filter_append,
            trimChars_filter, hfil]
        · intro c hc
          rcases List.mem_cons.mp hc with hc' | hc'
          · subst hc'
            refine ⟨?_, hp⟩
            have hlen := trimChars_length_le (jsSlice clean i (chosenEnd clean m i))
            rw [jsSlice_length clean i (chosenEnd clean m i) (by omega) hle] at hlen
            have hpe := chosenEnd_le clean m i
            unfold proposedEnd at hpe
            omega
          · exact hbound c hc'
    · have hge : clean.length ≤ i := by omega
      refine ⟨[], ?_, ?_, ?_, by simp⟩
      · unfold chunkLoop
        rw [if_neg hi]
      · simp [List.drop_eq_nil_of_le hge]
      · simp [List.drop_eq_nil_of_le hge]

/-- A 206-character input whose first window has a sentence break just past
character 200: 201 letters `a`, then `". "`, then `"b b"`. -/
def c2exText : List Char := List.replicate 201 'a' ++ ['.', ' ', 'b', ' ', 'b']

/-- The chunks the code produces for `c2exText` with `maxChars = 205`. -/
def c2exChunks : List (List Char) := [List.replicate 201 'a' ++ ['.'], ['b', ' ', 'b']]

set_option maxRecDepth 10000

/-- Claim C2, counterexample: concatenating the chunks does not reconstruct
the normalized trimmed text — the space after the sentence break at which
the first chunk was cut is dropped by the per-chunk `trim()`, an interior
boundary, not an outer one.  (`c2exChunks.flatten` reads `…a.b b` while the
cleaned source reads `…a. b b`.) -/
theorem chunk_concat_counterexample :
    chunkText c2exText 205 = some c2exChunks ∧
    c2exChunks.flatten ≠ cleanOf c2exText := by
  constructor
  · decide
  · decide

/-- Claim C2, amended: for every input and positive `maxChars` the chunker
terminates and its chunks are trimmed slices of a left-to-right partition
of the normalized trimmed text: their concatenation is a sublist of that
text and retains exactly its non-whitespace characters in order (nothing
duplicated, nothing non-whitespace dropped); the only characters lost are
whitespace removed by the per-chunk trim at chunk boundaries. -/
theorem chunk_reconstruction_upto_trim (text : List Char) (m : Nat) (hm : 0 < m) :
    ∃ out, chunkText text m = some out ∧
      out.flatten.Sublist (cleanOf text) ∧
      out.flatten.filter nonWS = (cleanOf text).filter nonWS := by
  unfold chunkText
  by_cases hc : cleanOf text = []
  · rw [if_pos hc]
    exact ⟨[], rfl, by simp [hc], by simp [hc]⟩
  · rw [if_neg hc]
    obtain ⟨out, h1, h2, h3, -⟩ :=
      chunkLoop_spec (cleanOf text) m hm (cleanOf text).length 0 (by omega)
    rw [List.drop_zero] at h2 h3
    exact ⟨out, h1, h2, h3⟩

/-- Witness for the amended C2 theorem at a concrete input. -/
theorem chunk_reconstruction_witness :
    chunkText ['h', 'i'] 5 = some [['h', 'i']] ∧
    (List.flatten [['h', 'i']]).filter nonWS = (cleanOf ['h', 'i']).filter nonWS := by
  obtain ⟨out, h1, h2, h3⟩ := chunk_reconstruction_upto_trim ['h', 'i'] 5 (by decide)
  have hout : out = [['h', 'i']] := by
    have h4 : chunkText ['h', 'i'] 5 = some [['h', 'i']] := by decide
    rw [h1] at h4
    exact Option.some.inj h4
  subst hout
  exact ⟨h1, h3⟩

/-- Claim C3: the code performs no validation of `maxChars` at all.  With
`maxChars = 0` and non-empty input the loop body computes
`end = min(i + 0, len) = i`, makes no progress, and the `while` loop never
exits: the call diverges instead of failing with an `InvalidArgument`
error.  Formally: no amount of fuel completes the loop, so `chunkText`
reports `none` (non-termination of the source loop). -/
theorem chunk_zero_maxChars_diverges :
    (∀ fuel, chunkLoop (cleanOf ['a']) 0 fuel 0 = none) ∧
    chunkText ['a'] 0 = none := by
  have key : ∀ fuel, chunkLoop ['a'] 0 fuel 0 = none := by
    intro fuel
    induction fuel with
    | zero => decide
    | succ fuel ih =>
      unfold chunkLoop
      rw [if_pos (by decide)]
      have hce : chosenEnd ['a'] 0 0 = 0 := by decide
      rw [hce, ih]
  constructor
  · intro fuel
    rw [show cleanOf ['a'] = ['a'] from by decide]
    exact key fuel
  · decide

/-- Claim C4: for positive `maxChars` the chunker terminates and every
returned chunk has length at most `maxChars` — the sentence-boundary
adjustment only ever moves the cut leftwards inside the window, and the
final chunk is cut at `min(i + maxChars, length)`, so not even the final
segment exceeds the bound. -/
theorem chunk_length_le (text : List Char) (m : Nat) (hm : 0 < m) :
    ∃ out, chunkText text m = some out ∧ ∀ c ∈ out, c.length ≤ m := by
  unfold chunkText
  by_cases hc : cleanOf text = []
  · rw [if_pos hc]
    exact ⟨[], rfl, by simp⟩
  · rw [if_neg hc]
    obtain ⟨out, h1, -, -, h4⟩ :=
      chunkLoop_spec (cleanOf text) m hm (cleanOf text).length 0 (by omega)
    exact ⟨out, h1, fun c hcm => (h4 c hcm).1⟩

/-- Witness for the C4 theorem at a concrete input. -/
theorem chunk_length_le_witness :
    chunkText ['a', 'b', 'c'] 2 = some [['a', 'b'], ['c']] ∧
    (['a', 'b'] : List Char).length ≤ 2 := by
  obtain ⟨out, h1, h2⟩ := chunk_length_le ['a', 'b', 'c'] 2 (by decide)
  have hout : out = [['a', 'b'], ['c']] := by
    have h4 : chunkText ['a', 'b', 'c'] 2 = some [['a', 'b'], ['c']] := by decide
    rw [h1] at h4
    exact Option.some.inj h4
  subst hout
  exact ⟨h1, h2 ['a', 'b'] (by simp)⟩

/-!
Narration controller embedding (app.js, later revision, lines 216-453).
The module-level mutable bindings (`queue`, `currentIndex`, `isPlaying`,
the status line) together with the observable flags of
`window.speechSynthesis` form one record.
-/

structure PlayerState where
  queue : List String
  currentIndex : Nat
  isPlaying : Bool
  status : String
  engSpeaking : Bool
  engPaused : Bool
  engPending : Bool
  deriving DecidableEq

/-- The state at script load: empty queue, `setStatus("Idle")`
(app.js lines 447-453). -/
def initialState : PlayerState :=
  { queue := [], currentIndex := 0, isPlaying := false, status := "Idle",
    engSpeaking := false, engPaused := false, engPending := false }

/-- Embeds `setProgress` (app.js lines 241-245): the numbers the progress line
shows, `Math.min(currentIndex, queue.length)` out of `queue.length`. -/
def progressPair (s : PlayerState) : Nat × Nat :=
  (min s.currentIndex s.queue.length, s.queue.length)

/-- Embeds `window.speechSynthesis.cancel()`: drops the current and any pending
utterance; the engine stops producing audio. -/
def cancelEngine (s : PlayerState) : PlayerState :=
  { s with engSpeaking := false, engPending := false }

/-- Embeds `stopAll` (app.js lines 317-324). -/
def stopAll (s : PlayerState) : PlayerState :=
  { cancelEngine s with
      isPlaying := false, queue := [], currentIndex := 0, status := "Stopped" }

/-- Embeds `pause` (app.js lines 405-410). -/
def pause (s : PlayerState) : PlayerState :=
  if s.engSpeaking && !s.engPaused then
    { s with engPaused := true, status := "Paused" }
  else s

/-- Embeds `playFromStart` (app.js lines 383-403), with the chunk queue
`chunkText(text, maxChars)` abstracted as the parameter `segs`.  The
`speakNext()` call that ends the non-empty branch is the first step of
the run functions below. -/
def playFromStart (segs : List String) (s : PlayerState) : PlayerState :=
  if segs.length = 0 then
    { cancelEngine s with
        queue := segs, currentIndex := 0, isPlaying := false,
        status := "Nothing to play — paste text or load podcast.txt" }
  else
    { cancelEngine s with
        queue := segs, currentIndex := 0, isPlaying := true, status := "Queued" }

/-- One invocation of `speakNext` (app.js lines 326-366) up to the point
where it either returns or hands an utterance to the engine: the returned
index is the queue position spoken (`none` when no request is issued; the
cursor moves only in the utterance callbacks below). -/
def speakNext1 (s : PlayerState) : PlayerState × Option Nat :=
  if !s.isPlaying then (s, none)
  else if s.engPaused then (s, none)
  else if s.queue.length ≤ s.currentIndex then
    ({ s with isPlaying := false, status := "Done" }, none)
  else ({ s with engPending := true }, some s.currentIndex)

/-- Embeds `utter.onend` (app.js lines 351-356): the utterance resolved
successfully; the cursor advances and a deferred `speakNext` tick is
scheduled. -/
def onendCb (s : PlayerState) : PlayerState :=
  { s with
      currentIndex := s.currentIndex + 1, engSpeaking := false,
      engPending := false }

/-- Embeds `utter.onerror` (app.js lines 358-363): the engine reported failure for
the outstanding utterance; the chunk is skipped and a deferred `speakNext`
tick is scheduled. -/
def onerrorCb (s : PlayerState) : PlayerState :=
  { s with
      currentIndex := s.currentIndex + 1,
      status := "TTS error — skipping chunk", engSpeaking := false,
      engPending := false }

/-- Observable interactions with the engine during a run. -/
inductive Ev where
  | issue (k : Nat)
  | errCb (k : Nat)
  deriving DecidableEq

/-- The self-perpetuating request chain of the controller run against an
engine that fails every request: each issued utterance resolves through
`onerror`, whose deferred tick invokes `speakNext` again.  Fuel bounds the
number of callback rounds; the trace records issued requests and failure
callbacks in order. -/
def failRun : Nat → PlayerState → PlayerState × List Ev
  | 0, s =>
    match speakNext1 s with
    | (s1, none) => (s1, [])
    | (s1, some k) => (s1, [Ev.issue k])
  | fuel + 1, s =>
    match speakNext1 s with
    | (s1, none) => (s1, [])
    | (s1, some k) =>
      ((failRun fuel (onerrorCb s1)).1,
        Ev.issue k :: Ev.errCb k :: (failRun fuel (onerrorCb s1)).2)

/-- The queue indices of the narration requests issued along a trace. -/
def issuedOf : List Ev → List Nat
  | [] => []
  | Ev.issue k :: rest => k :: issuedOf rest
  | Ev.errCb _ :: rest => issuedOf rest

/-- The number of failure callbacks in a trace. -/
def errCount : List Ev → Nat
  | [] => 0
  | Ev.errCb _ :: rest => errCount rest + 1
  | Ev.issue _ :: rest => errCount rest

/-- Checks the at-most-one-in-flight discipline along a trace, given the
number of currently outstanding requests: a request may be issued only
when none is outstanding, and a failure callback may fire only for the
single outstanding request. -/
def atMostOne : Nat → List Ev → Bool
  | _, [] => true
  | o, Ev.issue _ :: rest => o == 0 && atMostOne 1 rest
  | o, Ev.errCb _ :: rest => o == 1 && atMostOne 0 rest

theorem failRun_none (fuel : Nat) (s s1 : PlayerState)
    (hs : speakNext1 s = (s1, none)) : failRun fuel s = (s1, []) := by
  cases fuel with
  | zero =>
    conv_lhs => rw [failRun]
    rw [hs]
  | succ fuel =>
    conv_lhs => rw [failRun]
    rw [hs]

theorem failRun_succ_issue (fuel : Nat) (s s1 : PlayerState) (k : Nat)
    (hs : speakNext1 s = (s1, some k)) :
    failRun (fuel + 1) s =
      ((failRun fuel (onerrorCb s1)).1,
        Ev.issue k :: Ev.errCb k :: (failRun fuel (onerrorCb s1)).2) := by
  conv_lhs => rw [failRun]
  rw [hs]

theorem failRun_spec : ∀ (fuel : Nat) (s : PlayerState),
    s.isPlaying = true → s.engPaused = false →
    s.queue.length - s.currentIndex ≤ fuel →
    (failRun fuel s).1.status = "Done" ∧
    (failRun fuel s).1.isPlaying = false ∧
    issuedOf (failRun fuel s).2 =
      List.range' s.currentIndex (s.queue.length - s.currentIndex) ∧
    errCount (failRun fuel s).2 = s.queue.length - s.currentIndex ∧
    atMostOne 0 (failRun fuel s).2 = true := by
  intro fuel
  induction fuel with
  | zero =>
    intro s hp hpa hf
    have hge : s.queue.length ≤ s.currentIndex := by omega
    have hs : speakNext1 s = ({ s with isPlaying := false, status := "Done" }, none) := by
      simp [speakNext1, hp, hpa, hge]
    rw [failRun_none 0 s _ hs]
    refine ⟨rfl, rfl, ?_, ?_, rfl⟩
    · rw [show s.queue.length - s.currentIndex = 0 from by omega]
      rfl
    · rw [show s.queue.length - s.currentIndex = 0 from by omega]
      rfl
  | succ fuel ih =>
    intro s hp hpa hf
    by_cases hge : s.queue.length ≤ s.currentIndex
    · have hs : speakNext1 s = ({ s with isPlaying := false, status := "Done" }, none) := by
        simp [speakNext1, hp, hpa, hge]
      rw [failRun_none (fuel + 1) s _ hs]
      refine ⟨rfl, rfl, ?_, ?_, rfl⟩
      · rw [show s.queue.length - s.currentIndex = 0 from by omega]
        rfl
      · rw [show s.queue.length - s.currentIndex = 0 from by omega]
        rfl
    · have hlt : s.currentIndex < s.queue.length := by omega
      have hs : speakNext1 s = ({ s with engPending := true }, some s.currentIndex) := by
        simp [speakNext1, hp, hpa, Nat.not_le.mpr hlt]
      have hih := ih (onerrorCb { s with engPending := true }) hp hpa
        (show s.queue.length - (s.currentIndex + 1) ≤ fuel from by omega)
      obtain ⟨hst, hpl, hiss, herr, hamo⟩ := hih
      rw [show (onerrorCb { s with engPending := true }).queue = s.queue from rfl,
        show (onerrorCb { s with engPending := true }).currentIndex =
          s.currentIndex + 1 from rfl] at hiss herr
      rw [failRun_succ_issue fuel s _ s.currentIndex hs]
      refine ⟨hst, hpl, ?_, ?_, ?_⟩
      · rw [show issuedOf (Ev.issue s.currentIndex :: Ev.errCb s.currentIndex ::
          (failRun fuel (onerrorCb { s with engPending := true })).2) =
          s.currentIndex ::
            issuedOf (failRun fuel (onerrorCb { s with engPending := true })).2 from rfl,
          hiss,
          show s.queue.length - s.currentIndex =
            (s.queue.length - (s.currentIndex + 1)) + 1 from by omega,
          List.range'_succ]
      · rw [show errCount (Ev.issue s.currentIndex :: Ev.errCb s.currentIndex ::
          (failRun fuel (onerrorCb { s with engPending := true })).2) =
          errCount (failRun fuel (onerrorCb { s with engPending := true })).2 + 1
          from rfl, herr]
        omega
      · show atMostOne 0 (Ev.issue s.currentIndex :: Ev.errCb s.currentIndex ::
          (failRun fuel (onerrorCb { s with engPending := true })).2) = true
        simp [atMostOne, hamo]

/-- Claim C1: in a session where the engine reports failure on every issued
request, the controller reaches the `Done` status with the playing flag
cleared after exactly `segs.length` failure callbacks, each queue index is
issued exactly once in order (no retries), and at every point of the trace
at most one request is outstanding against the engine. -/
theorem all_fail_session_reaches_done (segs : List String) (s0 : PlayerState)
    (fuel : Nat) (hne : segs ≠ []) (hpa : s0.engPaused = false)
    (hfuel : segs.length ≤ fuel) :
    (failRun fuel (playFromStart segs s0)).1.status = "Done" ∧
    (failRun fuel (playFromStart segs s0)).1.isPlaying = false ∧
    issuedOf (failRun fuel (playFromStart segs s0)).2 = List.range segs.length ∧
    errCount (failRun fuel (playFromStart segs s0)).2 = segs.length ∧
    atMostOne 0 (failRun fuel (playFromStart segs s0)).2 = true := by
  have hlen : ¬ segs.length = 0 := by
    intro h
    exact hne (List.eq_nil_of_length_eq_zero h)
  have h := failRun_spec fuel (playFromStart segs s0)
    (by simp [playFromStart, hlen])
    (by simp [playFromStart, hlen, cancelEngine, hpa])
    (by simp [playFromStart, hlen]; omega)
  obtain ⟨h1, h2, h3, h4, h5⟩ := h
  rw [show (playFromStart segs s0).queue = segs from by simp [playFromStart, hlen],
    show (playFromStart segs s0).currentIndex = 0 from by simp [playFromStart, hlen]]
    at h3 h4
  refine ⟨h1, h2, ?_, ?_, h5⟩
  · rw [h3, List.range_eq_range', Nat.sub_zero]
  · rw [h4]
    omega

/-- Witness for the all-fail run theorem at a concrete two-segment
session. -/
theorem all_fail_witness :
    (failRun 2 (playFromStart ["a", "b"] initialState)).1.status = "Done" ∧
    (failRun 2 (playFromStart ["a", "b"] initialState)).1.isPlaying = false ∧
    issuedOf (failRun 2 (playFromStart ["a", "b"] initialState)).2 = List.range 2 ∧
    errCount (failRun 2 (playFromStart ["a", "b"] initialState)).2 = 2 ∧
    atMostOne 0 (failRun 2 (playFromStart ["a", "b"] initialState)).2 = true :=
  all_fail_session_reaches_done ["a", "b"] initialState 2 (by decide) rfl
    (by decide)

/-- Claim C6: `stopAll` from any state cancels the engine, clears the
segment queue, resets the cursor, sets the `Stopped` status with the
playing flag down, and leaves the progress line reporting `0 / 0`; it is a
total function of the state, so it always succeeds. -/
theorem stopAll_resets (s : PlayerState) :
    (stopAll s).queue = [] ∧ (stopAll s).currentIndex = 0 ∧
    (stopAll s).isPlaying = false ∧ (stopAll s).status = "Stopped" ∧
    (stopAll s).engSpeaking = false ∧ (stopAll s).engPending = false ∧
    progressPair (stopAll s) = (0, 0) := by
  simp [stopAll, cancelEngine, progressPair]

/-- Claim C7: in every state, `setProgress` shows
`(min(currentIndex, queue.length), queue.length)`, so the narrated count
never exceeds the total count — also immediately after the final `onend`
increments the cursor past the last index. -/
theorem progress_clamped (s : PlayerState) :
    progressPair s = (min s.currentIndex s.queue.length, s.queue.length) ∧
    (progressPair s).1 ≤ (progressPair s).2 ∧
    (progressPair (onendCb s)).1 ≤ (progressPair (onendCb s)).2 :=
  ⟨rfl, min_le_right _ _, min_le_right _ _⟩

/-- Claim C8: `pause` changes nothing at all unless the engine is speaking
and not already paused; in that case it pauses the engine and sets the
`Paused` status, leaving the queue, cursor, playing flag and the engine's
speaking state untouched. -/
theorem pause_noop_unless_speaking (s : PlayerState) :
    (s.engSpeaking = true → s.engPaused = false →
      (pause s).engPaused = true ∧ (pause s).status = "Paused" ∧
      (pause s).queue = s.queue ∧ (pause s).currentIndex = s.currentIndex ∧
      (pause s).isPlaying = s.isPlaying ∧ (pause s).engSpeaking = s.engSpeaking ∧
      (pause s).engPending = s.engPending) ∧
    (¬ (s.engSpeaking = true ∧ s.engPaused = false) → pause s = s) := by
  constructor
  · intro h1 h2
    unfold pause
    rw [if_pos (by rw [h1, h2]; rfl)]
    exact ⟨rfl, rfl, rfl, rfl, rfl, rfl, rfl⟩
  · intro h
    have h' : ¬ ((s.engSpeaking && !s.engPaused) = true) := by
      intro hc
      rw [Bool.and_eq_true, Bool.not_eq_true'] at hc
      exact h hc
    unfold pause
    rw [if_neg h']

/-- A state in which the engine is audibly speaking and not paused. -/
def speakingState : PlayerState := { initialState with engSpeaking := true }

/-- Witness for the pause theorem: a no-op from the idle state, an engine
pause plus `Paused` status from a speaking state. -/
theorem pause_witness :
    pause initialState = initialState ∧
    (pause speakingState).status = "Paused" ∧
    (pause speakingState).engPaused = true := by
  have h0 := (pause_noop_unless_speaking initialState).2 (by decide)
  have h1 := (pause_noop_unless_speaking speakingState).1 rfl rfl
  exact ⟨h0, h1.2.1, h1.1⟩

/-- Claim C10: whenever the playing flag is down — after `stopAll`, after
natural completion, or after an empty-queue `playFromStart` — any
invocation of `speakNext`, including a stale deferred tick, returns
immediately: no request is issued and the state (cursor, status, mode,
engine flags) is unchanged. -/
theorem speakNext_noop_when_not_playing (s : PlayerState)
    (h : s.isPlaying = false) : speakNext1 s = (s, none) := by
  unfold speakNext1
  rw [h]
  rfl

/-- Witness: a stale tick arriving after `stopAll` does nothing. -/
theorem speakNext_noop_witness :
    speakNext1 (stopAll initialState) = (stopAll initialState, none) :=
  speakNext_noop_when_not_playing (stopAll initialState) rfl

/-!
Voice registry and the default-voice selection of `loadVoices`
(app.js lines 247-276).
-/

structure Voice where
  voiceURI : String
  name : String
  lang : String
  deriving DecidableEq

/-- Embeds `(v.lang || "").toLowerCase().startsWith("en")`: the English test of
the sort comparator and of fallback (c). -/
def isEnVoice (v : Voice) : Bool :=
  ['e', 'n'].isPrefixOf (v.lang.data.map Char.toLower)

/-- Embeds `v.lang?.startsWith("en-US")` (case-sensitive). -/
def isEnUS (v : Voice) : Bool := "en-US".data.isPrefixOf v.lang.data

/-- Code-point lexicographic order on display names: the shallow embedding
of `a.name.localeCompare(b.name) <= 0`. -/
def charListLE : List Char → List Char → Bool
  | [], _ => true
  | _ :: _, [] => false
  | a :: as, b :: bs => if a = b then charListLE as bs else decide (a < b)

/-- The sort comparator of `loadVoices` (app.js lines 254-259): English
voices first, then alphabetical by display name. -/
def voiceLE (a b : Voice) : Bool :=
  if isEnVoice a == isEnVoice b then charListLE a.name.data b.name.data
  else isEnVoice a

/-- Stable insertion into a sorted list. -/
def insertVoice (a : Voice) : List Voice → List Voice
  | [] => [a]
  | b :: l => if voiceLE a b then a :: b :: l else b :: insertVoice a l

/-- Embeds `const sorted = [...voices].sort(cmp)`: `Array.prototype.sort` is
stable, embedded as stable insertion sort by the comparator. -/
def sortedVoices : List Voice → List Voice
  | [] => []
  | a :: l => insertVoice a (sortedVoices l)

/-- Case-insensitive substring occurrence (`pat` occurs somewhere in `s`). -/
def containsSub (s pat : List Char) : Bool :=
  (List.range (s.length + 1)).any fun k => pat.isPrefixOf (s.drop k)

/-- Embeds `/Enhanced|Premium|Google/i.test(v.name)` (app.js line 270). -/
def hasMarker (name : String) : Bool :=
  containsSub (name.data.map Char.toLower) "enhanced".data ||
  containsSub (name.data.map Char.toLower) "premium".data ||
  containsSub (name.data.map Char.toLower) "google".data

/-- The `sorted.find(...) || sorted.find(...) || sorted.find(...)` chain
(app.js lines 269-272). -/
def preferredVoice (vs : List Voice) : Option Voice :=
  match (sortedVoices vs).find? (fun v => isEnUS v && hasMarker v.name) with
  | some v => some v
  | none =>
    match (sortedVoices vs).find? isEnUS with
    | some v => some v
    | none => (sortedVoices vs).find? isEnVoice

/-- JS `a || b` on a possibly-missing string: an empty string is falsy and
falls through. -/
def jsOrStr (a b : Option String) : Option String :=
  match a with
  | some s => if s = "" then b else some s
  | none => b

/-- Embeds `selectedVoiceURI = preferred?.voiceURI || sorted[0]?.voiceURI || null`
(app.js line 274). -/
def defaultVoiceURI (vs : List Voice) : Option String :=
  jsOrStr ((preferredVoice vs).map Voice.voiceURI)
    (jsOrStr (((sortedVoices vs).head?).map Voice.voiceURI) none)

/-- Modelled from the spec: the claimed selection policy of §6, whose
"enhanced/premium" marker set does not include "google". -/
def specMarker (name : String) : Bool :=
  containsSub (name.data.map Char.toLower) "enhanced".data ||
  containsSub (name.data.map Char.toLower) "premium".data

/-- Modelled from the spec: the claimed ordered policy (a)-(d) with the
"enhanced/premium" marker set. -/
def specDefaultVoiceURI (vs : List Voice) : Option String :=
  match (sortedVoices vs).find? (fun v => isEnUS v && specMarker v.name) with
  | some v => some v.voiceURI
  | none =>
    match (sortedVoices vs).find? isEnUS with
    | some v => some v.voiceURI
    | none =>
      match (sortedVoices vs).find? isEnVoice with
      | some v => some v.voiceURI
      | none => ((sortedVoices vs).head?).map Voice.voiceURI

/-- The amended policy: the same ordered chain (a)-(d) but with the marker
set {enhanced, premium, google} of the code's regex. -/
def amendedDefaultVoiceURI (vs : List Voice) : Option String :=
  match (sortedVoices vs).find? (fun v => isEnUS v && hasMarker v.name) with
  | some v => some v.voiceURI
  | none =>
    match (sortedVoices vs).find? isEnUS with
    | some v => some v.voiceURI
    | none =>
      match (sortedVoices vs).find? isEnVoice with
      | some v => some v.voiceURI
      | none => ((sortedVoices vs).head?).map Voice.voiceURI

theorem mem_insertVoice {a v : Voice} {l : List Voice} :
    v ∈ insertVoice a l → v = a ∨ v ∈ l := by
  induction l with
  | nil =>
    intro h
    simp [insertVoice] at h
    exact Or.inl h
  | cons b l ih =>
    intro h
    unfold insertVoice at h
    by_cases hc : voiceLE a b
    · rw [if_pos hc] at h
      rcases List.mem_cons.mp h with h' | h'
      · exact Or.inl h'
      · exact Or.inr h'
    · rw [if_neg hc] at h
      rcases List.mem_cons.mp h with h' | h'
      · exact Or.inr (by simp [h'])
      · rcases ih h' with h'' | h''
        · exact Or.inl h''
        · exact Or.inr (List.mem_cons_of_mem _ h'')

theorem mem_sortedVoices {v : Voice} {vs : List Voice} :
    v ∈ sortedVoices vs → v ∈ vs := by
  induction vs with
  | nil =>
    intro h
    simp [sortedVoices] at h
  | cons a l ih =>
    intro h
    unfold sortedVoices at h
    rcases mem_insertVoice h with h' | h'
    · simp [h']
    · exact List.mem_cons_of_mem _ (ih h')

/-- An en-US voice without any marker in its name. -/
def alexVoice : Voice :=
  { voiceURI := "uriAlex", name := "Alex", lang := "en-US" }

/-- An en-US voice whose name matches the code's regex only through the
"Google" alternative. -/
def googleVoice : Voice :=
  { voiceURI := "uriGoogle", name := "Google US English", lang := "en-US" }

/-- Claim C9, counterexample: on the list [Alex, Google US English] (both
en-US) the code selects the Google voice — its regex marker set includes
"Google" — while the claimed policy, whose marker set is only
"enhanced/premium", selects Alex via fallback (b). -/
theorem voice_policy_counterexample :
    defaultVoiceURI [alexVoice, googleVoice] = some "uriGoogle" ∧
    specDefaultVoiceURI [alexVoice, googleVoice] = some "uriAlex" ∧
    defaultVoiceURI [alexVoice, googleVoice] ≠
      specDefaultVoiceURI [alexVoice, googleVoice] := by
  refine ⟨?_, ?_, ?_⟩ <;> decide

/-- Claim C9, amended: with the marker set {enhanced, premium, google} the
code's selection follows the claimed ordered policy (a)-(d) exactly —
provided every voice URI is a non-empty string (JS `||` would treat an
empty URI as missing) — and no selection is made for an empty list. -/
theorem voice_policy_amended (vs : List Voice)
    (hne : ∀ v ∈ vs, v.voiceURI ≠ "") :
    defaultVoiceURI vs = amendedDefaultVoiceURI vs ∧
    (vs = [] → defaultVoiceURI vs = none) := by
  constructor
  · unfold defaultVoiceURI amendedDefaultVoiceURI preferredVoice
    cases h1 : (sortedVoices vs).find? (fun v => isEnUS v && hasMarker v.name) with
    | some v =>
      have hv : v.voiceURI ≠ "" :=
        hne v (mem_sortedVoices (List.mem_of_find?_eq_some h1))
      simp [jsOrStr, hv]
    | none =>
      cases h2 : (sortedVoices vs).find? isEnUS with
      | some v =>
        have hv : v.voiceURI ≠ "" :=
          hne v (mem_sortedVoices (List.mem_of_find?_eq_some h2))
        simp [jsOrStr, hv]
      | none =>
        cases h3 : (sortedVoices vs).find? isEnVoice with
        | some v =>
          have hv : v.voiceURI ≠ "" :=
            hne v (mem_sortedVoices (List.mem_of_find?_eq_some h3))
          simp [jsOrStr, hv]
        | none =>
          cases h4 : (sortedVoices vs).head? with
          | some v =>
            have hv : v.voiceURI ≠ "" :=
              hne v (mem_sortedVoices
                (List.mem_of_mem_head? (Option.mem_def.mpr h4)))
            simp [jsOrStr, hv]
          | none => simp [jsOrStr]
  · rintro rfl
    decide

/-- Witness for the amended voice-policy theorem at a concrete list. -/
theorem voice_policy_amended_witness :
    defaultVoiceURI [alexVoice, googleVoice] =
      amendedDefaultVoiceURI [alexVoice, googleVoice] :=
  (voice_policy_amended [alexVoice, googleVoice] (by decide)).1

end StudyPlayer
